import Mathlib

/-!
# Verification of the helix DNA ledger core

Shallow embedding of the helix sources:

* `src/compression/perceptual.rs` — perceptual fingerprint (`Perceptual.hash`),
  bitwise Hamming distances (`Perceptual.byte_distance`, `Perceptual.distance`,
  `Perceptual.distance_u64`);
* `src/compression/fasta.rs` — IUPAC sequence validator and the `Fasta` record;
* `src/main.rs` — the hash-linked ledger (`Chain`, `Chain.add_dna`, `mine_option`).

Machine integers (`u8`, `u64`) are embedded as `Nat` with explicit `% 2 ^ w`
where the Rust operation wraps.  Fallible operations (`panic!`, the
`process::exit` control flow of `mine_option`) are embedded as `Except`-style
results together with the state they leave behind.  The cryptographic digest
plus hex-uppercase encoder (`HEXUPPER.encode(Sha256::digest(..))`) is an
external collaborator of the core and is modelled as an abstract parameter
`sha256hex : String → String`; every ledger theorem is universally quantified
over it.
-/

namespace Perceptual

/-- Embedding of `byte_distance`'s `while index < 8` loop from
`src/compression/perceptual.rs`.  `mask` is a `u8`, so the left shift wraps
modulo `2 ^ 8`; `dist` is the accumulated `distance`. -/
def byteDistGo (b1 b2 : Nat) : Nat → Nat → Nat → Nat
  | _mask, dist, 0 => dist
  | mask, dist, n + 1 =>
      byteDistGo b1 b2 ((mask <<< 1) % 2 ^ 8)
        (if mask &&& b2 ≠ mask &&& b1 then dist + 1 else dist) n

/-- `fn byte_distance(b1 : u8, b2 : u8) -> u8` from
`src/compression/perceptual.rs`: mask starts at `0x01`, distance at `0`, and
the loop runs for the 8 bit positions of a byte. -/
def byte_distance (b1 b2 : Nat) : Nat :=
  byteDistGo b1 b2 0x01 0 8

/-- The error taxonomy of the byte-wise distance: unequal-length inputs.
In the source this is the `panic!("strings are not the same length")` branch
of `distance`; the panic is embedded as a typed error result. -/
inductive PerceptualError where
  | LengthMismatch
deriving DecidableEq

/-- `pub fn distance(bytes1 : &[u8], bytes2 : &[u8]) -> u64` from
`src/compression/perceptual.rs`: fails when the lengths differ, otherwise sums
`byte_distance(bytes1[i], bytes2[i])` over all indices (the indexed `for` loop
over equal-length slices is the pointwise `zipWith` sum). -/
def distance (bytes1 bytes2 : List Nat) : Except PerceptualError Nat :=
  if bytes1.length ≠ bytes2.length then
    .error .LengthMismatch
  else
    .ok (List.zipWith byte_distance bytes1 bytes2).sum

/-- Embedding of `distance_u64`'s `while index < 64` loop from
`src/compression/perceptual.rs`.  `mask` is a `u64`, so the left shift wraps
modulo `2 ^ 64`. -/
def distU64Go (b1 b2 : Nat) : Nat → Nat → Nat → Nat
  | _mask, dist, 0 => dist
  | mask, dist, n + 1 =>
      distU64Go b1 b2 ((mask <<< 1) % 2 ^ 64)
        (if mask &&& b2 ≠ mask &&& b1 then dist + 1 else dist) n

/-- `pub fn distance_u64(b1: u64, b2: u64) -> u8` from
`src/compression/perceptual.rs`: mask starts at `0x01`, distance at `0`, and
the loop runs for the 64 bit positions of a `u64`. -/
def distance_u64 (b1 b2 : Nat) : Nat :=
  distU64Go b1 b2 0x01 0 64

/-- One iteration of the `for byte in string` loop of `hash` from
`src/compression/perceptual.rs`: `hvalue ^= mask; hvalue += mask;
hvalue <<= 8;` on `u64` values (`+=` and `<<=` wrap modulo `2 ^ 64`). -/
def hashStep (hvalue byte : Nat) : Nat :=
  ((((hvalue ^^^ byte) + byte) % 2 ^ 64) <<< 8) % 2 ^ 64

/-- `pub fn hash(string : &[u8]) -> u64` from `src/compression/perceptual.rs`:
the accumulator starts at `0xAAAAAAAA` and each input byte is folded in by
`hashStep`. -/
def hash (string : List Nat) : Nat :=
  string.foldl hashStep 0xAAAAAAAA

end Perceptual

/-- `pub struct Fasta` from `src/compression/fasta.rs`: a definition label,
the stored sequence bytes, and the stored perceptual fingerprint. -/
structure Fasta where
  definition : String
  seq : List Nat
  hash : Nat
deriving DecidableEq

namespace Fasta

/-- `Fasta::new` from `src/compression/fasta.rs`: empty definition, empty
sequence, and fingerprint field `0`. -/
def new : Fasta :=
  { definition := "", seq := [], hash := 0 }

/-- The 17 accepted (already upper-cased) IUPAC byte codes of the `match` in
`Fasta::valid_seq`: `A C G T N U K S Y M W R B D H V -`. -/
def iupacCodes : List Nat :=
  [0x41, 0x43, 0x47, 0x54, 0x4E, 0x55, 0x4B, 0x53, 0x59,
   0x4D, 0x57, 0x52, 0x42, 0x44, 0x48, 0x56, 0x2D]

/-- `fn valid_seq(to_test : &[u8]) -> bool` from `src/compression/fasta.rs`:
each byte is folded by subtracting 32 when it is `>= b'a'` (`0x61`), then
matched against the 17 accepted codes; the first failing byte returns
`false`, an exhausted input returns `true`. -/
def valid_seq : List Nat → Bool
  | [] => true
  | c :: rest =>
      let lowercase_c := if 0x61 ≤ c then c - 32 else c
      if lowercase_c ∈ iupacCodes then valid_seq rest else false

/-- `pub fn set_seq(&mut self, new_seq : Vec<u8>) -> bool` from
`src/compression/fasta.rs`: on a valid sequence, store it verbatim,
store `perceptual::hash` of it, and return `true`; otherwise return `false`
leaving the record untouched.  The mutation is embedded as returning the new
record next to the boolean. -/
def set_seq (self : Fasta) (new_seq : List Nat) : Fasta × Bool :=
  if valid_seq new_seq then
    ({ self with seq := new_seq, hash := Perceptual.hash new_seq }, true)
  else
    (self, false)

end Fasta

/-- `struct Block` from `src/main.rs`: the previous-block link hash, the
submitter id hash, and the DNA content hash (all hex strings). -/
structure Block where
  p_hash : String
  id : String
  dna_hash : String
deriving DecidableEq

/-- `struct Txn` from `src/main.rs`: a pending transaction, carrying the
submitter id hash and the DNA content hash. -/
structure Txn where
  id : String
  dna_hash : String
deriving DecidableEq

/-- `struct Chain` from `src/main.rs`: the committed blockchain and the FIFO
queue of pending transactions (`Vec` push at the tail, `remove(0)` at the
head). -/
structure Chain where
  blockchain : List Block
  pending_txns : List Txn
deriving DecidableEq

/-- Lower-case hex digit, as used by `serde_json`'s `\u00XX` escapes. -/
def hexLowerDigit (n : Nat) : Char :=
  if n < 10 then Char.ofNat (0x30 + n) else Char.ofNat (0x57 + n)

/-- `serde_json` escaping of a single character inside a JSON string:
`"` and `\` get a backslash, the five short control escapes are used for
backspace, tab, line feed, form feed and carriage return, any other control
character becomes `\u00XX`, and everything else is emitted verbatim. -/
def jsonEscapeChar (c : Char) : String :=
  if c = '"' then "\\\""
  else if c = '\\' then "\\\\"
  else if c.toNat < 0x20 then
    if c.toNat = 0x08 then "\\b"
    else if c.toNat = 0x09 then "\\t"
    else if c.toNat = 0x0A then "\\n"
    else if c.toNat = 0x0C then "\\f"
    else if c.toNat = 0x0D then "\\r"
    else "\\u00" ++ String.mk [hexLowerDigit (c.toNat / 16), hexLowerDigit (c.toNat % 16)]
  else String.mk [c]

/-- A JSON string literal in `serde_json`'s output form. -/
def jsonString (s : String) : String :=
  "\"" ++ String.join (s.data.map jsonEscapeChar) ++ "\""

/-- `serde_json::to_string` of a `Block`: the canonical serialization used for
the link hash in `mine_option` (fields in declaration order). -/
def blockJson (b : Block) : String :=
  "\x7b\"p_hash\":" ++ jsonString b.p_hash ++ ",\"id\":" ++ jsonString b.id ++
    ",\"dna_hash\":" ++ jsonString b.dna_hash ++ "\x7d"

/-- `serde_json::to_string` of the `Option<&Block>` returned by
`blockchain.last()`: `None` serializes as `null`, `Some` transparently as the
block itself. -/
def optionBlockJson : Option Block → String
  | none => "null"
  | some b => blockJson b

/-- The Unicode `White_Space` property, the character class removed by Rust's
`str::trim`. -/
def isRustWhitespace (c : Char) : Bool :=
  (0x09 ≤ c.toNat && c.toNat ≤ 0x0D) || c.toNat = 0x20 || c.toNat = 0x85 ||
    c.toNat = 0xA0 || c.toNat = 0x1680 ||
    (0x2000 ≤ c.toNat && c.toNat ≤ 0x200A) || c.toNat = 0x2028 ||
    c.toNat = 0x2029 || c.toNat = 0x202F || c.toNat = 0x205F || c.toNat = 0x3000

/-- Rust's `str::trim`: remove leading and trailing `White_Space`
characters. -/
def rustTrim (s : String) : String :=
  String.mk (((s.data.dropWhile isRustWhitespace).reverse.dropWhile isRustWhitespace).reverse)

/-- `Chain::add_dna` from `src/main.rs` (the `submit` operation): hash the
trimmed DNA and the trimmed uid with the external digest-and-hex-uppercase
collaborator `sha256hex`, and push the resulting transaction at the tail of
the pending queue. -/
def Chain.add_dna (sha256hex : String → String) (chain : Chain) (dna uid : String) : Chain :=
  let dna_hash := sha256hex (rustTrim dna)
  let id := sha256hex (rustTrim uid)
  { chain with pending_txns := chain.pending_txns ++ [{ id := id, dna_hash := dna_hash }] }

/-- The ledger error taxonomy: `finalize` on an empty queue, and a head
transaction whose content hash is already committed.  In `src/main.rs` both
are reported to the user and end the interaction (`process::exit`); the
embedding surfaces them as typed results. -/
inductive LedgerError where
  | EmptyQueue
  | DuplicateContent
deriving DecidableEq

/-- `fn mine_option(chain: &mut Chain)` from `src/main.rs` (the `finalize`
operation), embedded as the state it leaves behind together with its outcome:

* empty pending queue — nothing mined, `EmptyQueue`;
* empty blockchain — the head transaction becomes the first block, whose
  `p_hash` is the digest of the fixed genesis preimage `"0000000000"`;
* otherwise, if some committed block already holds the head transaction's
  `dna_hash`, the head transaction is removed and `DuplicateContent` is
  reported, with no block appended;
* otherwise the head transaction becomes a block whose `p_hash` is the digest
  of the `serde_json` serialization of `blockchain.last()`. -/
def mine_option (sha256hex : String → String) (chain : Chain) :
    Chain × Except LedgerError Block :=
  match chain.pending_txns with
  | [] => (chain, .error .EmptyQueue)
  | tx :: rest =>
    if chain.blockchain.length < 1 then
      let dna_hash := tx.dna_hash
      let p_hash := sha256hex "0000000000"
      let id := tx.id
      let block : Block := { p_hash := p_hash, id := id, dna_hash := dna_hash }
      ({ blockchain := chain.blockchain ++ [block], pending_txns := rest }, .ok block)
    else
      let dna_hash := tx.dna_hash
      if chain.blockchain.any (fun block => dna_hash = block.dna_hash) then
        ({ chain with pending_txns := rest }, .error .DuplicateContent)
      else
        let p_block := chain.blockchain.getLast?
        let p_block_json := optionBlockJson p_block
        let p_hash := sha256hex p_block_json
        let id := tx.id
        let block : Block := { p_hash := p_hash, id := id, dna_hash := dna_hash }
        ({ blockchain := chain.blockchain ++ [block], pending_txns := rest }, .ok block)

/-- The ledger states reachable from the initial empty chain of `main` by any
sequence of `submit` (`Chain.add_dna`) and `finalize` (`mine_option`)
operations, for a fixed external digest `sha256hex`. -/
inductive Reachable (sha256hex : String → String) : Chain → Prop
  | init : Reachable sha256hex { blockchain := [], pending_txns := [] }
  | submit (dna uid : String) {c : Chain} :
      Reachable sha256hex c → Reachable sha256hex (Chain.add_dna sha256hex c dna uid)
  | mine {c : Chain} :
      Reachable sha256hex c → Reachable sha256hex (mine_option sha256hex c).1

/-- The hash-link invariant: `linkedFrom sha256hex h bs` states that the first
block of `bs` has `p_hash = h` and every later block's `p_hash` is the digest
of the `serde_json` serialization of its immediate predecessor. -/
def linkedFrom (sha256hex : String → String) : String → List Block → Prop
  | _, [] => True
  | h, b :: rest => b.p_hash = h ∧ linkedFrom sha256hex (sha256hex (blockJson b)) rest

/-- The link hash `mine_option` uses for the next block appended after `bs`,
when the chain invariant starts from hash `h`. -/
def lastHash (sha256hex : String → String) (h : String) (bs : List Block) : String :=
  match bs.getLast? with
  | none => h
  | some l => sha256hex (blockJson l)

/-- The fingerprint procedure as the specification words it, for the
refinement theorem of the perceptual hash: starting from the 64-bit
accumulator `0x00000000AAAAAAAA`, for each byte in order XOR the
(zero-extended) byte into the accumulator, add the same byte with wrapping
(mod `2 ^ 64`) addition, then shift left by 8 bits discarding overflow. -/
def fingerprintClaim : Nat → List Nat → Nat
  | acc, [] => acc
  | acc, byte :: rest =>
      fingerprintClaim ((((acc ^^^ byte) + byte) % 2 ^ 64) * 2 ^ 8 % 2 ^ 64) rest

-- sanity checks against the unit tests in `src/compression/perceptual.rs`
example : Perceptual.byte_distance 0x00 0x01 = 1 := by decide
example : Perceptual.byte_distance 0x00 0xFF = 8 := by decide
example : Perceptual.byte_distance 0x00 0x54 = 3 := by decide
example : Perceptual.byte_distance 0x07 0x09 = 3 := by decide
example : Perceptual.byte_distance 0x41 0x30 = 4 := by decide
example : Perceptual.distance [0x30, 0x30, 0x30, 0x31] [0x30, 0x30, 0x30, 0x30] = .ok 1 := rfl
example : Perceptual.distance [0x30, 0x30, 0x30, 0x41] [0x30, 0x30, 0x30, 0x30] = .ok 4 := rfl
example : Perceptual.distance [1, 2] [1] = .error .LengthMismatch := rfl
example : Perceptual.distance_u64 0x0F 0x08 = 3 := by decide
example : Perceptual.hash [] = 0xAAAAAAAA := by decide
example : Fasta.valid_seq [0x41, 0x43, 0x47, 0x43, 0x4B] = true := by decide
example : Fasta.valid_seq [0x41, 0x43, 0x47, 0x43, 0x4B, 0x5A] = false := by decide
example : Fasta.valid_seq [0x61, 0x63, 0x67, 0x74] = true := by decide

/-! ## Bitwise helper lemmas -/

lemma mask_and_ne_iff (i b1 b2 : Nat) :
    (2 ^ i &&& b2 ≠ 2 ^ i &&& b1) ↔ b1.testBit i ≠ b2.testBit i := by
  rw [Nat.two_pow_and, Nat.two_pow_and]
  have h2 : (2 : Nat) ^ i ≠ 0 := pow_ne_zero i two_ne_zero
  cases h1 : b1.testBit i <;> cases hb : b2.testBit i <;> simp_all [Ne.symm h2]

lemma distU64Go_spec (b1 b2 : Nat) (n : Nat) :
    ∀ (i d : Nat), i + n ≤ 64 →
      Perceptual.distU64Go b1 b2 (2 ^ i % 2 ^ 64) d n =
        d + ((List.range n).countP fun j => b1.testBit (i + j) != b2.testBit (i + j)) := by
  induction n with
  | zero => intro i d _; simp [Perceptual.distU64Go]
  | succ n ih =>
      intro i d h
      have hi : i < 64 := by omega
      have hmask : 2 ^ i % 2 ^ 64 = 2 ^ i :=
        Nat.mod_eq_of_lt (Nat.pow_lt_pow_right (by norm_num) hi)
      rw [hmask]
      rw [show Perceptual.distU64Go b1 b2 (2 ^ i) d (n + 1)
            = Perceptual.distU64Go b1 b2 ((2 ^ i <<< 1) % 2 ^ 64)
                (if 2 ^ i &&& b2 ≠ 2 ^ i &&& b1 then d + 1 else d) n from rfl]
      have hshift : (2 ^ i <<< 1) = 2 ^ (i + 1) := by
        rw [Nat.shiftLeft_eq, pow_one, pow_succ]
      rw [hshift, ih (i + 1) _ (by omega)]
      rw [List.range_succ_eq_map, List.countP_cons, List.countP_map]
      have hcong : (List.range n).countP
            ((fun j => b1.testBit (i + j) != b2.testBit (i + j)) ∘ Nat.succ)
          = (List.range n).countP fun j => b1.testBit (i + 1 + j) != b2.testBit (i + 1 + j) := by
        apply List.countP_congr
        intro x _
        simp only [Function.comp_apply]
        rw [show i + Nat.succ x = i + 1 + x by omega]
      rw [hcong]
      by_cases hc : b1.testBit i = b2.testBit i
      · have h0 : (b1.testBit (i + 0) != b2.testBit (i + 0)) = false := by simpa using hc
        rw [if_neg (by rw [mask_and_ne_iff]; simpa using hc), h0]
        simp
      · have h0 : (b1.testBit (i + 0) != b2.testBit (i + 0)) = true := by simpa using hc
        rw [if_pos (by rw [mask_and_ne_iff]; exact hc), h0]
        simp
        omega

lemma distance_u64_eq_countP (a b : Nat) :
    Perceptual.distance_u64 a b
      = (List.range 64).countP fun i => a.testBit i != b.testBit i := by
  have h1 : (0x01 : Nat) = 2 ^ 0 % 2 ^ 64 := by norm_num
  rw [Perceptual.distance_u64, h1, distU64Go_spec a b 64 0 0 (by omega), Nat.zero_add]
  apply List.countP_congr
  intro x _
  rw [Nat.zero_add]

lemma byteDistGo_spec (b1 b2 : Nat) (n : Nat) :
    ∀ (i d : Nat), i + n ≤ 8 →
      Perceptual.byteDistGo b1 b2 (2 ^ i % 2 ^ 8) d n =
        d + ((List.range n).countP fun j => b1.testBit (i + j) != b2.testBit (i + j)) := by
  induction n with
  | zero => intro i d _; simp [Perceptual.byteDistGo]
  | succ n ih =>
      intro i d h
      have hi : i < 8 := by omega
      have hmask : 2 ^ i % 2 ^ 8 = 2 ^ i :=
        Nat.mod_eq_of_lt (Nat.pow_lt_pow_right (by norm_num) hi)
      rw [hmask]
      rw [show Perceptual.byteDistGo b1 b2 (2 ^ i) d (n + 1)
            = Perceptual.byteDistGo b1 b2 ((2 ^ i <<< 1) % 2 ^ 8)
                (if 2 ^ i &&& b2 ≠ 2 ^ i &&& b1 then d + 1 else d) n from rfl]
      have hshift : (2 ^ i <<< 1) = 2 ^ (i + 1) := by
        rw [Nat.shiftLeft_eq, pow_one, pow_succ]
      rw [hshift, ih (i + 1) _ (by omega)]
      rw [List.range_succ_eq_map, List.countP_cons, List.countP_map]
      have hcong : (List.range n).countP
            ((fun j => b1.testBit (i + j) != b2.testBit (i + j)) ∘ Nat.succ)
          = (List.range n).countP fun j => b1.testBit (i + 1 + j) != b2.testBit (i + 1 + j) := by
        apply List.countP_congr
        intro x _
        simp only [Function.comp_apply]
        rw [show i + Nat.succ x = i + 1 + x by omega]
      rw [hcong]
      by_cases hc : b1.testBit i = b2.testBit i
      · have h0 : (b1.testBit (i + 0) != b2.testBit (i + 0)) = false := by simpa using hc
        rw [if_neg (by rw [mask_and_ne_iff]; simpa using hc), h0]
        simp
      · have h0 : (b1.testBit (i + 0) != b2.testBit (i + 0)) = true := by simpa using hc
        rw [if_pos (by rw [mask_and_ne_iff]; exact hc), h0]
        simp
        omega

lemma byte_distance_eq_countP (a b : Nat) :
    Perceptual.byte_distance a b = (List.range 8).countP fun i => (a ^^^ b).testBit i := by
  have h1 : (0x01 : Nat) = 2 ^ 0 % 2 ^ 8 := by norm_num
  rw [Perceptual.byte_distance, h1, byteDistGo_spec a b 8 0 0 (by omega), Nat.zero_add]
  apply List.countP_congr
  intro x _
  rw [Nat.zero_add, Nat.testBit_xor]

/-! ## Claim theorems about the perceptual module -/

/-- **C9.** `distance_u64 a b` is the number of bit positions `0`–`63` at
which `a` and `b` differ — the population count of `a ^^^ b` — hence lies in
`[0, 64]`, is `0` on equal arguments, and is symmetric. -/
theorem distance_u64_spec (a b : Nat) :
    Perceptual.distance_u64 a b
        = ((List.range 64).countP fun i => a.testBit i != b.testBit i) ∧
    Perceptual.distance_u64 a b
        = ((List.range 64).countP fun i => (a ^^^ b).testBit i) ∧
    Perceptual.distance_u64 a b ≤ 64 ∧
    Perceptual.distance_u64 a a = 0 ∧
    Perceptual.distance_u64 a b = Perceptual.distance_u64 b a := by
  refine ⟨distance_u64_eq_countP a b, ?_, ?_, ?_, ?_⟩
  · rw [distance_u64_eq_countP a b]
    apply List.countP_congr
    intro x _
    rw [Nat.testBit_xor]
  · rw [distance_u64_eq_countP a b]
    calc ((List.range 64).countP fun i => a.testBit i != b.testBit i)
        ≤ (List.range 64).length := List.countP_le_length _
      _ = 64 := by simp
  · rw [distance_u64_eq_countP a a]
    exact List.countP_eq_zero.mpr (fun x _ => by simp)
  · rw [distance_u64_eq_countP a b, distance_u64_eq_countP b a]
    apply List.countP_congr
    intro x _
    cases a.testBit x <;> cases b.testBit x <;> simp

/-- **C7.** On equal-length byte lists, `distance` succeeds with the sum over
all positions of the per-byte count of differing bits (the population count of
the XOR of corresponding bytes); on unequal lengths it fails with
`LengthMismatch` — it never truncates or pads. -/
theorem distance_bytes_spec (x y : List Nat) :
    (x.length = y.length →
      Perceptual.distance x y =
        .ok (List.zipWith
          (fun a b => (List.range 8).countP fun i => (a ^^^ b).testBit i) x y).sum) ∧
    (x.length ≠ y.length → Perceptual.distance x y = .error .LengthMismatch) := by
  constructor
  · intro h
    have hf : Perceptual.byte_distance
        = fun a b => (List.range 8).countP fun i => (a ^^^ b).testBit i :=
      funext fun a => funext fun b => byte_distance_eq_countP a b
    rw [Perceptual.distance, if_neg (by omega), hf]
  · intro h
    rw [Perceptual.distance, if_pos h]

/-- Closed-form instance of `distance_bytes_spec`: `0x41` and `0x49` differ in
one bit, and a 2-vs-1 length mismatch yields the error. -/
theorem distance_bytes_spec_witness :
    Perceptual.distance [0x41] [0x49] = .ok 1 ∧
    Perceptual.distance [1, 2] [3] = .error .LengthMismatch :=
  ⟨((distance_bytes_spec [0x41] [0x49]).1 rfl).trans (by rfl),
   (distance_bytes_spec [1, 2] [3]).2 (by decide)⟩

lemma foldl_hashStep_eq_claim (s : List Nat) :
    ∀ acc : Nat, s.foldl Perceptual.hashStep acc = fingerprintClaim acc s := by
  induction s with
  | nil => intro acc; rfl
  | cons b rest ih =>
      intro acc
      rw [List.foldl_cons, ih, fingerprintClaim]
      congr 1
      rw [Perceptual.hashStep, Nat.shiftLeft_eq]

/-- **C3.** The perceptual hash is exactly the procedure the specification
describes: accumulator initialised to `0x00000000AAAAAAAA`, then per input
byte (in order) XOR the zero-extended byte in, add it with wrapping
(mod `2 ^ 64`) addition, and shift left by 8 discarding overflow; in
particular `hash []` is the initial constant.  (Determinism is inherent: the
embedding is a pure function of the byte list.) -/
theorem hash_refines_fingerprint_claim (s : List Nat) :
    Perceptual.hash s = fingerprintClaim 0xAAAAAAAA s ∧
    Perceptual.hash [] = 0xAAAAAAAA :=
  ⟨foldl_hashStep_eq_claim s 0xAAAAAAAA, rfl⟩

lemma xor_mod_two_pow (a b k : Nat) : (a ^^^ b) % 2 ^ k = a % 2 ^ k ^^^ b % 2 ^ k := by
  apply Nat.eq_of_testBit_eq
  intro i
  simp only [Nat.testBit_mod_two_pow, Nat.testBit_xor]
  cases h : decide (i < k) <;> cases h1 : a.testBit i <;> cases h2 : b.testBit i <;> simp_all

lemma hashStep_lt (h b : Nat) : Perceptual.hashStep h b < 2 ^ 64 :=
  Nat.mod_lt _ (by norm_num)

lemma foldl_hashStep_lt (s : List Nat) :
    ∀ a : Nat, a < 2 ^ 64 → s.foldl Perceptual.hashStep a < 2 ^ 64 := by
  induction s with
  | nil => intro a ha; exact ha
  | cons b rest ih => intro a _; exact ih (Perceptual.hashStep a b) (hashStep_lt a b)

lemma hashStep_congr (m k : Nat) (hk8 : 8 ≤ k) (hk64 : k ≤ 64) (hkm : k ≤ m + 8)
    (b h1 h2 : Nat) (hmod : h1 % 2 ^ m = h2 % 2 ^ m) :
    Perceptual.hashStep h1 b % 2 ^ k = Perceptual.hashStep h2 b % 2 ^ k := by
  have key : ∀ h : Nat, Perceptual.hashStep h b % 2 ^ k =
      ((h % 2 ^ (k - 8) ^^^ b % 2 ^ (k - 8)) + b % 2 ^ (k - 8)) % 2 ^ (k - 8)
        * 2 ^ 8 := by
    intro h
    rw [Perceptual.hashStep, Nat.shiftLeft_eq, Nat.mod_mod_of_dvd _ (pow_dvd_pow 2 hk64),
      show (2 : Nat) ^ k = 2 ^ (k - 8) * 2 ^ 8 by rw [← pow_add]; congr 1; omega,
      Nat.mul_mod_mul_right, Nat.mod_mod_of_dvd _ (pow_dvd_pow 2 (by omega : k - 8 ≤ 64)),
      Nat.add_mod, xor_mod_two_pow]
  have hsub : h1 % 2 ^ (k - 8) = h2 % 2 ^ (k - 8) := by
    rw [← Nat.mod_mod_of_dvd h1 (pow_dvd_pow 2 (by omega : k - 8 ≤ m)), hmod,
      Nat.mod_mod_of_dvd h2 (pow_dvd_pow 2 (by omega : k - 8 ≤ m))]
  rw [key h1, key h2, hsub]

lemma foldl_hashStep_congr (t : List Nat) :
    ∀ (m h1 h2 : Nat), h1 < 2 ^ 64 → h2 < 2 ^ 64 → 64 ≤ m + 8 * t.length →
      h1 % 2 ^ m = h2 % 2 ^ m →
      t.foldl Perceptual.hashStep h1 = t.foldl Perceptual.hashStep h2 := by
  induction t with
  | nil =>
      intro m h1 h2 l1 l2 hlen hmod
      simp only [List.length_nil, Nat.mul_zero, Nat.add_zero] at hlen
      have e1 : h1 % 2 ^ m = h1 :=
        Nat.mod_eq_of_lt (lt_of_lt_of_le l1 (Nat.pow_le_pow_right (by norm_num) hlen))
      have e2 : h2 % 2 ^ m = h2 :=
        Nat.mod_eq_of_lt (lt_of_lt_of_le l2 (Nat.pow_le_pow_right (by norm_num) hlen))
      simpa [e1, e2] using hmod
  | cons b t ih =>
      intro m h1 h2 l1 l2 hlen hmod
      simp only [List.foldl_cons]
      by_cases hm : 64 ≤ m
      · have e1 : h1 % 2 ^ m = h1 :=
          Nat.mod_eq_of_lt (lt_of_lt_of_le l1 (Nat.pow_le_pow_right (by norm_num) hm))
        have e2 : h2 % 2 ^ m = h2 :=
          Nat.mod_eq_of_lt (lt_of_lt_of_le l2 (Nat.pow_le_pow_right (by norm_num) hm))
        rw [show h1 = h2 by rw [← e1, ← e2, hmod]]
      · apply ih (min (m + 8) 64) (Perceptual.hashStep h1 b) (Perceptual.hashStep h2 b)
          (hashStep_lt h1 b) (hashStep_lt h2 b)
          (by simp only [List.length_cons] at hlen; omega)
        exact hashStep_congr m (min (m + 8) 64) (by omega) (by omega) (by omega) b h1 h2 hmod

/-- **C6.** Bytes more than 8 positions before the end of the input contribute
nothing to the perceptual hash: for any tail `t` of length at least 8,
`hash (p ++ t) = hash (q ++ t)` for all prefixes `p`, `q`, because each
iteration's left shift by 8 evicts all earlier contributions after 8 further
iterations. -/
theorem hash_ignores_bytes_before_last_eight (p q t : List Nat) (ht : 8 ≤ t.length) :
    Perceptual.hash (p ++ t) = Perceptual.hash (q ++ t) := by
  rw [Perceptual.hash, Perceptual.hash, List.foldl_append, List.foldl_append]
  exact foldl_hashStep_congr t 0
    (p.foldl Perceptual.hashStep 0xAAAAAAAA) (q.foldl Perceptual.hashStep 0xAAAAAAAA)
    (foldl_hashStep_lt p 0xAAAAAAAA (by norm_num))
    (foldl_hashStep_lt q 0xAAAAAAAA (by norm_num))
    (by omega) (by simp [Nat.mod_one])

/-- Closed-form instance of `hash_ignores_bytes_before_last_eight`: prefixes
`[0x00]` and `[0xFF]` are indistinguishable behind the 8-byte tail `ACGTACGT`. -/
theorem hash_ignores_bytes_before_last_eight_witness :
    8 ≤ ([0x41, 0x43, 0x47, 0x54, 0x41, 0x43, 0x47, 0x54] : List Nat).length ∧
    Perceptual.hash ([0x00] ++ [0x41, 0x43, 0x47, 0x54, 0x41, 0x43, 0x47, 0x54]) =
      Perceptual.hash ([0xFF] ++ [0x41, 0x43, 0x47, 0x54, 0x41, 0x43, 0x47, 0x54]) :=
  ⟨by decide,
   hash_ignores_bytes_before_last_eight [0x00] [0xFF]
     [0x41, 0x43, 0x47, 0x54, 0x41, 0x43, 0x47, 0x54] (by decide)⟩

/-! ## Claim theorems about the sequence validator and the `Fasta` record -/

/-- **C4.** The validator accepts exactly the byte lists whose every byte,
after folding to upper case by subtracting 32 when the byte is at least
`b'a'`, is one of the 17 IUPAC symbols `{A,C,G,T,N,U,K,S,Y,M,W,R,B,D,H,V,-}`;
the empty list is valid.  (Purity and determinism are inherent: the embedding
is a function of the byte list alone.) -/
theorem valid_seq_iff_alphabet (s : List Nat) :
    (Fasta.valid_seq s = true ↔
      ∀ c ∈ s, (if 0x61 ≤ c then c - 32 else c) ∈ Fasta.iupacCodes) ∧
    Fasta.valid_seq [] = true := by
  refine ⟨?_, rfl⟩
  induction s with
  | nil => simp [Fasta.valid_seq]
  | cons c rest ih =>
      by_cases h : (if 0x61 ≤ c then c - 32 else c) ∈ Fasta.iupacCodes
      · simp only [Fasta.valid_seq, if_pos h, List.mem_cons]
        constructor
        · intro hv x hx
          rcases hx with rfl | hx
          · exact h
          · exact (ih.mp hv) x hx
        · intro hall
          exact ih.mpr fun x hx => hall x (Or.inr hx)
      · simp only [Fasta.valid_seq, if_neg h, List.mem_cons]
        constructor
        · intro hv
          exact absurd hv (by simp)
        · intro hall
          exact absurd (hall c (Or.inl rfl)) h

/-- **C5.** `set_seq` is all-or-nothing: on an invalid sequence it returns
`false` and leaves the record (sequence, fingerprint, and definition label)
entirely unchanged; on a valid one it returns `true`, stores the bytes
verbatim (no case normalisation) and stores `Perceptual.hash` of the new
bytes. -/
theorem set_seq_frame_spec (f : Fasta) (new_seq : List Nat) :
    (Fasta.valid_seq new_seq = false → Fasta.set_seq f new_seq = (f, false)) ∧
    (Fasta.valid_seq new_seq = true →
      Fasta.set_seq f new_seq =
        ({ definition := f.definition, seq := new_seq,
           hash := Perceptual.hash new_seq }, true)) := by
  constructor
  · intro h
    rw [Fasta.set_seq, if_neg (by simp [h])]
  · intro h
    rw [Fasta.set_seq, if_pos h]

/-- Closed-form instance of `set_seq_frame_spec`: `Z` (`0x5A`) is rejected
with no mutation, `A` (`0x41`) is stored with its fingerprint. -/
theorem set_seq_frame_spec_witness :
    Fasta.set_seq Fasta.new [0x5A] = (Fasta.new, false) ∧
    Fasta.set_seq Fasta.new [0x41] =
      ({ definition := "", seq := [0x41], hash := Perceptual.hash [0x41] }, true) :=
  ⟨(set_seq_frame_spec Fasta.new [0x5A]).1 (by decide),
   (set_seq_frame_spec Fasta.new [0x41]).2 (by decide)⟩

/-- **C10.** A fresh record (`Fasta::new`) has an empty sequence and stored
fingerprint `0`, which is *not* the fingerprint of the empty sequence
(`Perceptual.hash [] = 0xAAAAAAAA`); the stored-fingerprint invariant
`f.hash = Perceptual.hash f.seq` only holds after a successful `set_seq`. -/
theorem fasta_new_hash_mismatch :
    Fasta.new.seq = [] ∧ Fasta.new.hash = 0 ∧
    Perceptual.hash Fasta.new.seq = 0xAAAAAAAA ∧
    Fasta.new.hash ≠ Perceptual.hash Fasta.new.seq ∧
    (∀ (f : Fasta) (s : List Nat), Fasta.valid_seq s = true →
      (Fasta.set_seq f s).1.hash = Perceptual.hash (Fasta.set_seq f s).1.seq) := by
  refine ⟨rfl, rfl, by decide, by decide, ?_⟩
  intro f s h
  rw [Fasta.set_seq, if_pos h]

/-- Closed-form instance of `fasta_new_hash_mismatch`: after storing `A` the
stored fingerprint agrees with the fingerprint of the stored sequence. -/
theorem fasta_new_hash_mismatch_witness :
    (Fasta.set_seq Fasta.new [0x41]).1.hash =
      Perceptual.hash (Fasta.set_seq Fasta.new [0x41]).1.seq :=
  fasta_new_hash_mismatch.2.2.2.2 Fasta.new [0x41] (by decide)

/-! ## Ledger helper lemmas -/

lemma mine_option_nil (sha256hex : String → String) (bc : List Block) :
    mine_option sha256hex ⟨bc, []⟩ = (⟨bc, []⟩, .error .EmptyQueue) := rfl

lemma mine_option_cons (sha256hex : String → String) (bc : List Block)
    (tx : Txn) (rest : List Txn) :
    mine_option sha256hex ⟨bc, tx :: rest⟩ =
      if bc = [] then
        (⟨[{ p_hash := sha256hex "0000000000", id := tx.id, dna_hash := tx.dna_hash }], rest⟩,
         .ok { p_hash := sha256hex "0000000000", id := tx.id, dna_hash := tx.dna_hash })
      else if bc.any (fun block => tx.dna_hash = block.dna_hash) then
        (⟨bc, rest⟩, .error .DuplicateContent)
      else
        (⟨bc ++ [{ p_hash := sha256hex (optionBlockJson bc.getLast?), id := tx.id,
                   dna_hash := tx.dna_hash }], rest⟩,
         .ok { p_hash := sha256hex (optionBlockJson bc.getLast?), id := tx.id,
               dna_hash := tx.dna_hash }) := by
  simp only [mine_option]
  by_cases hbc : bc = []
  · subst hbc
    simp
  · have hlen : ¬ bc.length < 1 := by
      cases bc with
      | nil => exact absurd rfl hbc
      | cons b t => simp
    rw [if_neg hlen, if_neg hbc]

lemma lastHash_cons (sha256hex : String → String) (h : String) (b : Block)
    (bs : List Block) :
    lastHash sha256hex h (b :: bs) = lastHash sha256hex (sha256hex (blockJson b)) bs := by
  cases bs with
  | nil => rfl
  | cons b2 t =>
      obtain ⟨l, hl⟩ : ∃ l, (b2 :: t).getLast? = some l :=
        ⟨(b2 :: t).getLast (by simp), List.getLast?_eq_getLast _ _⟩
      simp [lastHash, List.getLast?_cons_cons, hl]

lemma linkedFrom_append (sha256hex : String → String) (b : Block) :
    ∀ (bs : List Block) (h : String), linkedFrom sha256hex h bs →
      b.p_hash = lastHash sha256hex h bs → linkedFrom sha256hex h (bs ++ [b])
  | [], h, _, hp => ⟨hp, trivial⟩
  | b0 :: bs, h, hl, hp => by
      obtain ⟨hb0, hrest⟩ := hl
      exact ⟨hb0, linkedFrom_append sha256hex b bs _ hrest
        (by rwa [lastHash_cons] at hp)⟩

lemma reachable_linkedFrom (sha256hex : String → String) (c : Chain)
    (hr : Reachable sha256hex c) :
    linkedFrom sha256hex (sha256hex "0000000000") c.blockchain := by
  induction hr with
  | init => trivial
  | submit dna uid hc ih => exact ih
  | mine hc ih =>
      rename_i c
      obtain ⟨bc, pt⟩ := c
      cases pt with
      | nil => exact ih
      | cons tx rest =>
          rw [mine_option_cons]
          by_cases hbc : bc = []
          · subst hbc
            rw [if_pos rfl]
            exact ⟨rfl, trivial⟩
          · rw [if_neg hbc]
            by_cases hd : bc.any (fun block => tx.dna_hash = block.dna_hash)
            · rw [if_pos hd]
              exact ih
            · rw [if_neg hd]
              apply linkedFrom_append sha256hex _ bc _ ih
              obtain ⟨l, hl⟩ : ∃ l, bc.getLast? = some l := by
                cases bc with
                | nil => exact absurd rfl hbc
                | cons b t => exact ⟨(b :: t).getLast (by simp), List.getLast?_eq_getLast _ _⟩
              rw [lastHash, hl, optionBlockJson]

lemma linkedFrom_get (sha256hex : String → String) (bs : List Block) :
    ∀ (h : String), linkedFrom sha256hex h bs →
      ∀ i (hi : i < bs.length),
        (bs.get ⟨i, hi⟩).p_hash =
          if i = 0 then h
          else sha256hex (blockJson (bs.get ⟨i - 1, lt_of_le_of_lt (Nat.sub_le i 1) hi⟩)) := by
  induction bs with
  | nil => intro h _ i hi; simp at hi
  | cons b rest ih =>
      intro h hl i hi
      obtain ⟨hb, hrest⟩ := hl
      match i with
      | 0 => simpa using hb
      | Nat.succ j =>
          rw [if_neg (Nat.succ_ne_zero j)]
          have hj : j < rest.length := by simpa using hi
          have hrec := ih (sha256hex (blockJson b)) hrest j hj
          match j with
          | 0 => simpa using hrec
          | Nat.succ k =>
              rw [if_neg (Nat.succ_ne_zero k)] at hrec
              simpa using hrec

lemma reachable_nodup (sha256hex : String → String) (c : Chain)
    (hr : Reachable sha256hex c) :
    (c.blockchain.map Block.dna_hash).Nodup := by
  induction hr with
  | init => simp
  | submit dna uid hc ih => exact ih
  | mine hc ih =>
      rename_i c
      obtain ⟨bc, pt⟩ := c
      cases pt with
      | nil => exact ih
      | cons tx rest =>
          rw [mine_option_cons]
          by_cases hbc : bc = []
          · subst hbc
            rw [if_pos rfl]
            simp
          · rw [if_neg hbc]
            by_cases hd : bc.any (fun block => tx.dna_hash = block.dna_hash)
            · rw [if_pos hd]
              exact ih
            · rw [if_neg hd]
              simp only [List.map_append, List.map_cons, List.map_nil]
              rw [List.nodup_append]
              refine ⟨ih, List.nodup_singleton _, ?_⟩
              intro a ha hb
              simp only [List.mem_singleton] at hb
              subst hb
              obtain ⟨blk, hblk, hfa⟩ := List.mem_map.mp ha
              have hfalse : (bc.any fun block => decide (tx.dna_hash = block.dna_hash)) = false := by
                simpa using hd
              have hne := List.any_eq_false.mp hfalse blk hblk
              simp only [decide_eq_true_eq] at hne
              exact hne hfa.symm

/-! ## Claim theorems about the ledger -/

/-- **C1.** In every ledger state reachable by any sequence of submit
(`add_dna`) and finalize (`mine_option`) operations, the first committed
block's `p_hash` is the digest (hex-uppercase cryptographic hash, modelled by
the abstract collaborator `sha256hex`) of the fixed genesis preimage
`"0000000000"`, and every block after the first has `p_hash` equal to the
digest of the `serde_json` serialization of the immediately preceding
block. -/
theorem reachable_chain_linked (sha256hex : String → String) (c : Chain)
    (hr : Reachable sha256hex c) :
    ∀ i (hi : i < c.blockchain.length),
      (c.blockchain.get ⟨i, hi⟩).p_hash =
        if i = 0 then sha256hex "0000000000"
        else sha256hex (blockJson
          (c.blockchain.get ⟨i - 1, lt_of_le_of_lt (Nat.sub_le i 1) hi⟩)) :=
  linkedFrom_get sha256hex c.blockchain (sha256hex "0000000000")
    (reachable_linkedFrom sha256hex c hr)

/-- Closed-form instance of `reachable_chain_linked`: after one submit and one
finalize (with the identity standing in for the digest collaborator), the
single block links to the genesis preimage. -/
theorem reachable_chain_linked_witness :
    ((mine_option (fun s => s)
        (Chain.add_dna (fun s => s) ⟨[], []⟩ "ACGT" "alice")).1.blockchain.get
      ⟨0, by decide⟩).p_hash = "0000000000" := by
  have h := reachable_chain_linked (fun s => s)
      (mine_option (fun s => s) (Chain.add_dna (fun s => s) ⟨[], []⟩ "ACGT" "alice")).1
      (Reachable.mine (Reachable.submit "ACGT" "alice" Reachable.init)) 0 (by decide)
  simpa using h

/-- **C2.** When finalize runs with a non-empty queue whose head transaction's
content hash is already committed in some block, it fails with
`DuplicateContent`, appends no block (the blockchain is unchanged), and
removes the head transaction from the queue; consequently, in every reachable
state no two committed blocks share a `dna_hash`. -/
theorem mine_duplicate_spec (sha256hex : String → String) (c : Chain) :
    (∀ tx rest, c.pending_txns = tx :: rest →
      (∃ b ∈ c.blockchain, b.dna_hash = tx.dna_hash) →
      mine_option sha256hex c =
        ({ c with pending_txns := rest }, .error .DuplicateContent)) ∧
    (Reachable sha256hex c → (c.blockchain.map Block.dna_hash).Nodup) := by
  constructor
  · intro tx rest hq hdup
    rw [show mine_option sha256hex c = mine_option sha256hex ⟨c.blockchain, tx :: rest⟩ by
      rw [← hq]]
    rw [mine_option_cons]
    obtain ⟨b, hb, hbd⟩ := hdup
    have hbc : c.blockchain ≠ [] := by
      intro hnil
      rw [hnil] at hb
      simp at hb
    rw [if_neg hbc]
    have hany : (c.blockchain.any fun block => tx.dna_hash = block.dna_hash) = true :=
      List.any_eq_true.mpr ⟨b, hb, by simp [hbd]⟩
    rw [if_pos hany]
  · intro hr
    exact reachable_nodup sha256hex c hr

/-- Closed-form instance of `mine_duplicate_spec`: the head transaction's
`dna_hash` `"D"` is already committed, so finalize drops it and reports
`DuplicateContent` with the blockchain intact. -/
theorem mine_duplicate_spec_witness :
    mine_option (fun s => s)
        ⟨[{ p_hash := "G", id := "I1", dna_hash := "D" }],
         [{ id := "I2", dna_hash := "D" }]⟩ =
      (⟨[{ p_hash := "G", id := "I1", dna_hash := "D" }], []⟩,
       .error .DuplicateContent) :=
  (mine_duplicate_spec (fun s => s) _).1 { id := "I2", dna_hash := "D" } [] rfl
    ⟨{ p_hash := "G", id := "I1", dna_hash := "D" }, List.Mem.head _, rfl⟩

/-- **C8.** Finalize on an empty pending queue fails with `EmptyQueue` and
leaves both the committed blockchain and the pending queue unchanged. -/
theorem mine_empty_queue_spec (sha256hex : String → String) (c : Chain)
    (h : c.pending_txns = []) :
    mine_option sha256hex c = (c, .error .EmptyQueue) := by
  have hc : c = ⟨c.blockchain, []⟩ := by rw [← h]
  rw [hc, mine_option_nil]

/-- Closed-form instance of `mine_empty_queue_spec` on the initial state. -/
theorem mine_empty_queue_spec_witness :
    mine_option (fun s => s) ⟨[], []⟩ = (⟨[], []⟩, .error .EmptyQueue) :=
  mine_empty_queue_spec (fun s => s) ⟨[], []⟩ rfl
